import Mathlib

/-!
Verification of the aggregation-and-upsert pipeline of `transform.py`.

The pipeline reads timestamped sensor readings from a raw store
(`sensor_data`), computes daily per-building aggregates with a grouped
query (`compute_daily_aggregates`), and merges the resulting rows into
the summary store (`analytics_data`) with an upsert keyed on
`(building, date)` (`upsert_analytics`).

Embedding choices:
* The raw store is a `List Reading`; the summary store a `List SummaryRow`.
* Timestamps are microseconds since the epoch (`Nat`); a calendar date is
  the day index `timestamp / usPerDay`, matching `DATE_TRUNC('day', ...)`.
  `23:59:59.999999` of a day is the last microsecond of that day.
* Numeric aggregate values (`AVG`) are exact rationals.
* The SQL `GROUP BY building, day` with `ORDER BY` is modelled by
  collecting the distinct keys of the filtered readings, sorting them,
  and aggregating each group; `INSERT ... ON CONFLICT (building, date)
  DO UPDATE` is modelled row by row as insert-or-overwrite.
* Store side effects other than data changes (index creation, commits)
  are recorded as an operation trace `List StoreOp`.
-/

/-- A row of the raw store `sensor_data`. -/
structure Reading where
  building : String
  timestamp : Nat
  temperature : ℚ
  humidity : ℚ
  occupancy : Nat
deriving DecidableEq

/-- A row of the summary store `analytics_data`. -/
structure SummaryRow where
  building : String
  date : Nat
  avg_temperature : ℚ
  avg_humidity : ℚ
  occupancy_rate : ℚ
deriving DecidableEq

/-- Microseconds in one day. -/
def usPerDay : Nat := 86400000000

/-- `DATE_TRUNC('day', timestamp)::date`: the day index of a timestamp. -/
def dayOf (ts : Nat) : Nat := ts / usPerDay

/-- `max_dt.replace(hour=23, minute=59, second=59, microsecond=999999)`:
the last microsecond of the day containing `ts`. -/
def endOfDay (ts : Nat) : Nat := dayOf ts * usPerDay + (usPerDay - 1)

/-- The `WHERE` clause of `compute_daily_aggregates`: conjoined
`timestamp >= start_dt` and `timestamp < end_dt`, each only when the
corresponding bound is present. -/
def inWindow (start_dt end_dt : Option Nat) (r : Reading) : Bool :=
  (match start_dt with
   | some s => decide (s ≤ r.timestamp)
   | none => true) &&
  (match end_dt with
   | some e => decide (r.timestamp < e)
   | none => true)

/-- The grouping key of a reading: `(building, DATE_TRUNC('day', timestamp))`. -/
def readingKey (r : Reading) : String × Nat := (r.building, dayOf r.timestamp)

/-- The readings of one `GROUP BY` group. -/
def groupFor (rs : List Reading) (b : String) (d : Nat) : List Reading :=
  rs.filter fun r => decide (r.building = b) && decide (dayOf r.timestamp = d)

/-- One output row of the aggregation query: `AVG(temperature)`,
`AVG(humidity)`, and `AVG(CASE WHEN occupancy > 0 THEN 1.0 ELSE 0.0 END)`
over the group of key `k`. -/
def aggregateGroup (rs : List Reading) (k : String × Nat) : SummaryRow :=
  let grp := groupFor rs k.1 k.2
  { building := k.1
    date := k.2
    avg_temperature := (grp.map Reading.temperature).sum / (grp.length : ℚ)
    avg_humidity := (grp.map Reading.humidity).sum / (grp.length : ℚ)
    occupancy_rate := ((grp.filter fun r => decide (0 < r.occupancy)).length : ℚ) / (grp.length : ℚ) }

/-- Character-wise strict lexicographic order, the order `ORDER BY` uses on
text values under a byte collation. -/
def ltChars : List Char → List Char → Bool
  | [], [] => false
  | [], _ :: _ => true
  | _ :: _, [] => false
  | a :: as, b :: bs =>
      decide (a.toNat < b.toNat) || (decide (a.toNat = b.toNat) && ltChars as bs)

/-- `ORDER BY building, date`: lexicographic on the grouping key. -/
def keyLEb (a b : String × Nat) : Bool :=
  ltChars a.1.data b.1.data || (decide (a.1 = b.1) && decide (a.2 ≤ b.2))

def keyLE (a b : String × Nat) : Prop := keyLEb a b = true

instance : DecidableRel keyLE := fun a b => by unfold keyLE; infer_instance

/-- The distinct grouping keys of a list of readings. -/
def dailyKeys (rs : List Reading) : List (String × Nat) :=
  (rs.map readingKey).dedup

/-- `compute_daily_aggregates(conn_ts, start_dt, end_dt)`: filter the raw
store by the optional window bounds, group by `(building, day)`, aggregate
each group, `ORDER BY building, date`. -/
def compute_daily_aggregates (raw : List Reading) (start_dt end_dt : Option Nat) :
    List SummaryRow :=
  let filtered := raw.filter (inWindow start_dt end_dt)
  (List.insertionSort keyLE (dailyKeys filtered)).map (aggregateGroup filtered)

/-- Does a summary row carry the key `(b, d)`? -/
def matchKey (b : String) (d : Nat) (r : SummaryRow) : Bool :=
  decide (r.building = b) && decide (r.date = d)

/-- Number of rows of the store carrying the key `(b, d)`. -/
def keyCount (store : List SummaryRow) (b : String) (d : Nat) : Nat :=
  (store.filter (matchKey b d)).length

/-- The central invariant: every `(building, date)` key appears on at most
one row of the summary store. -/
def uniqueStore (store : List SummaryRow) : Prop :=
  ∀ b d, keyCount store b d ≤ 1

/-- The `DO UPDATE SET` clause: overwrite the three aggregate fields of a
conflicting row `r` with the candidate (`EXCLUDED`) values. -/
def applyConflictUpdate (c r : SummaryRow) : SummaryRow :=
  if matchKey c.building c.date r then
    { r with
      avg_temperature := c.avg_temperature
      avg_humidity := c.avg_humidity
      occupancy_rate := c.occupancy_rate }
  else r

/-- `INSERT ... ON CONFLICT (building, date) DO UPDATE` for one candidate
row: if some stored row carries the candidate's key, overwrite the three
aggregate fields of every such row; otherwise append the candidate. -/
def upsertRow (store : List SummaryRow) (c : SummaryRow) : List SummaryRow :=
  if store.any (matchKey c.building c.date) then
    store.map (applyConflictUpdate c)
  else store ++ [c]

/-- Observable interactions with the analytics database. -/
inductive StoreOp where
  | createUniqueIndex
  | commit
  | insertOnConflict (rows : List SummaryRow)
deriving DecidableEq

/-- `ensure_unique_index_on_analytics(conn_pg)`: `CREATE UNIQUE INDEX IF
NOT EXISTS` on `(building, date)`, then commit. -/
def ensure_unique_index_on_analytics : List StoreOp :=
  [StoreOp.createUniqueIndex, StoreOp.commit]

/-- `upsert_analytics(conn_pg, rows)`, with its operation trace: on an
empty candidate list return immediately (no store interaction); otherwise
ensure the unique index, run the batched `INSERT ... ON CONFLICT DO
UPDATE`, and commit. -/
def upsert_analytics_run (store rows : List SummaryRow) :
    List SummaryRow × List StoreOp :=
  if rows.isEmpty then (store, [])
  else (rows.foldl upsertRow store,
        ensure_unique_index_on_analytics ++ [StoreOp.insertOnConflict rows, StoreOp.commit])

/-- The summary-store contents after `upsert_analytics(conn_pg, rows)`. -/
def upsert_analytics (store rows : List SummaryRow) : List SummaryRow :=
  (upsert_analytics_run store rows).1

/-- `fetch_date_bounds(conn_ts)`: `SELECT min(timestamp), max(timestamp)
FROM sensor_data`. -/
def fetch_date_bounds (raw : List Reading) : Option Nat × Option Nat :=
  ((raw.map Reading.timestamp).min?, (raw.map Reading.timestamp).max?)

/-- Fatal pipeline failures surfaced by `main` via `sys.exit(1)`. -/
inductive RunError where
  | invalidDateFormat
  | noDataAvailable
deriving DecidableEq

/-- The range-resolution step of `main`: when either bound is missing,
fetch the raw-store bounds; fail when they are null; substitute the
minimum for a missing start and the end-of-day of the maximum for a
missing end. When both bounds are supplied they pass through unchanged. -/
def resolveWindow (raw : List Reading) (start_dt end_dt : Option Nat) :
    Except RunError (Nat × Nat) :=
  match start_dt, end_dt with
  | some s, some e => Except.ok (s, e)
  | _, _ =>
    match fetch_date_bounds raw with
    | (some mn, some mx) =>
        Except.ok (start_dt.getD mn, end_dt.getD (endOfDay mx))
    | _ => Except.error RunError.noDataAvailable

/-- The try-block of `main`: resolve the window, compute the daily
aggregates, upsert them. Returns the summary store after the run together
with the fatal error, if any; on a resolution failure `sys.exit(1)` fires
before any aggregate is computed, so the store is returned untouched. -/
def mainRun (raw : List Reading) (store : List SummaryRow)
    (start_dt end_dt : Option Nat) : List SummaryRow × Option RunError :=
  match resolveWindow raw start_dt end_dt with
  | Except.error err => (store, some err)
  | Except.ok (s, e) =>
      (upsert_analytics store (compute_daily_aggregates raw (some s) (some e)),
       none)

/-- Predicate packaging what claim C6 asserts of an output row: its
`occupancy_rate` is the fraction of readings of its group with positive
occupancy, the group is nonempty, and the rate lies in `[0, 1]`. -/
def occupancyRateSpec (raw : List Reading) (start_dt end_dt : Option Nat)
    (row : SummaryRow) : Prop :=
  let grp := groupFor (raw.filter (inWindow start_dt end_dt)) row.building row.date
  row.occupancy_rate =
    ((grp.filter fun r => decide (0 < r.occupancy)).length : ℚ) / (grp.length : ℚ)
  ∧ 1 ≤ grp.length ∧ 0 ≤ row.occupancy_rate ∧ row.occupancy_rate ≤ 1

/-! Concrete inputs used by the witness theorems. Day 19723 is
2024-01-01; its first microsecond is timestamp 1704067200000000. -/

/-- A summary row for (Building A, 2024-01-01). -/
def rowA : SummaryRow := ⟨"Building A", 19723, 21, 45, 1⟩

/-- A second candidate for the key of `rowA`, with different values. -/
def rowA2 : SummaryRow := ⟨"Building A", 19723, 25, 40, 0⟩

/-- A summary row for (Building B, 2024-01-01). -/
def rowB : SummaryRow := ⟨"Building B", 19723, 24, 50, 0⟩

/-- A reading at 2024-01-01T23:59:59.999999, the last microsecond of the
day. -/
def readingEdge : Reading := ⟨"Building A", 1704153599999999, 20, 30, 5⟩

/-- A raw store whose single reading sits at the last microsecond of its
day. -/
def rawEdge : List Reading := [readingEdge]

/-- A raw store with readings only at 2024-01-01T00:05 and
2024-01-01T23:55 (occupancies 0 and 5). -/
def rawInc : List Reading :=
  [⟨"Building A", 1704067500000000, 20, 30, 0⟩,
   ⟨"Building A", 1704153300000000, 22, 40, 5⟩]

/-- The single summary row aggregated from `rawInc` over the full range. -/
def rowInc : SummaryRow :=
  aggregateGroup (rawInc.filter (inWindow none none)) ("Building A", 19723)

example : dayOf 86400000005 = 1 := by decide

example :
    upsert_analytics [] [⟨"Building A", 0, 20, 30, 1⟩] =
      [⟨"Building A", 0, 20, 30, 1⟩] := by decide

/-! ### Basic lemmas -/

theorem upsert_analytics_eq_foldl (store rows : List SummaryRow) :
    upsert_analytics store rows = rows.foldl upsertRow store := by
  cases rows <;> simp [upsert_analytics, upsert_analytics_run]

theorem matchKey_eq_true_iff {b : String} {d : Nat} {r : SummaryRow} :
    matchKey b d r = true ↔ r.building = b ∧ r.date = d := by
  simp [matchKey]

theorem matchKey_eq_false_iff {b : String} {d : Nat} {r : SummaryRow} :
    matchKey b d r = false ↔ ¬(r.building = b ∧ r.date = d) := by
  simp [matchKey, Decidable.not_and_iff_or_not]

theorem matchKey_self (c : SummaryRow) : matchKey c.building c.date c = true := by
  simp [matchKey]

theorem matchKey_applyConflictUpdate (b : String) (d : Nat) (c r : SummaryRow) :
    matchKey b d (applyConflictUpdate c r) = matchKey b d r := by
  unfold applyConflictUpdate
  split <;> simp [matchKey]

theorem keyCount_nil (b : String) (d : Nat) : keyCount [] b d = 0 := rfl

theorem keyCount_append (s t : List SummaryRow) (b : String) (d : Nat) :
    keyCount (s ++ t) b d = keyCount s b d + keyCount t b d := by
  simp [keyCount, List.filter_append]

theorem keyCount_map_applyConflictUpdate (store : List SummaryRow)
    (c : SummaryRow) (b : String) (d : Nat) :
    keyCount (store.map (applyConflictUpdate c)) b d = keyCount store b d := by
  unfold keyCount
  rw [List.filter_map]
  rw [List.length_map]
  congr 1
  apply List.filter_congr
  intro x _
  simp [Function.comp, matchKey_applyConflictUpdate]

theorem keyCount_eq_zero_iff {store : List SummaryRow} {b : String} {d : Nat} :
    keyCount store b d = 0 ↔ store.any (matchKey b d) = false := by
  simp [keyCount, List.length_eq_zero, List.filter_eq_nil_iff, List.any_eq_false]

/-! ### Preservation of the uniqueness invariant -/

theorem keyCount_upsertRow_of_ne (store : List SummaryRow) (c : SummaryRow)
    (b : String) (d : Nat) (h : ¬(c.building = b ∧ c.date = d)) :
    keyCount (upsertRow store c) b d = keyCount store b d := by
  unfold upsertRow
  split
  · exact keyCount_map_applyConflictUpdate store c b d
  · rw [keyCount_append]
    have hc : matchKey b d c = false := matchKey_eq_false_iff.mpr h
    simp [keyCount, List.filter, hc]

theorem keyCount_upsertRow_self (store : List SummaryRow) (c : SummaryRow) :
    keyCount (upsertRow store c) c.building c.date =
      max (keyCount store c.building c.date) 1 := by
  unfold upsertRow
  split
  · rename_i hany
    rw [keyCount_map_applyConflictUpdate]
    have h1 : 1 ≤ keyCount store c.building c.date := by
      unfold keyCount
      rcases List.any_eq_true.mp hany with ⟨x, hx, hmx⟩
      have hmem : x ∈ store.filter (matchKey c.building c.date) :=
        List.mem_filter.mpr ⟨hx, hmx⟩
      exact List.length_pos.mpr (List.ne_nil_of_mem hmem)
    exact (Nat.max_eq_left h1).symm
  · rename_i hany
    have h0 : keyCount store c.building c.date = 0 :=
      keyCount_eq_zero_iff.mpr (by simpa using hany)
    rw [keyCount_append, h0]
    simp [keyCount, List.filter, matchKey_self]

theorem uniqueStore_upsertRow {store : List SummaryRow} (c : SummaryRow)
    (h : uniqueStore store) : uniqueStore (upsertRow store c) := by
  intro b d
  by_cases hk : c.building = b ∧ c.date = d
  · rcases hk with ⟨hb, hd⟩
    subst hb; subst hd
    rw [keyCount_upsertRow_self]
    have := h c.building c.date
    omega
  · rw [keyCount_upsertRow_of_ne store c b d hk]
    exact h b d

theorem uniqueStore_foldl_upsertRow {store : List SummaryRow}
    (rows : List SummaryRow) (h : uniqueStore store) :
    uniqueStore (rows.foldl upsertRow store) := by
  induction rows generalizing store with
  | nil => exact h
  | cons c rest ih => exact ih (uniqueStore_upsertRow c h)

theorem uniqueStore_upsert_analytics {store : List SummaryRow}
    (rows : List SummaryRow) (h : uniqueStore store) :
    uniqueStore (upsert_analytics store rows) := by
  rw [upsert_analytics_eq_foldl]
  exact uniqueStore_foldl_upsertRow rows h

/-! ### Membership lemmas for the upsert -/

theorem applyConflictUpdate_of_match {c r : SummaryRow}
    (h : matchKey c.building c.date r = true) : applyConflictUpdate c r = c := by
  rcases matchKey_eq_true_iff.mp h with ⟨hb, hd⟩
  unfold applyConflictUpdate
  rw [h]
  simp only [if_pos]
  cases c
  cases r
  simp_all

theorem applyConflictUpdate_of_not_match {c r : SummaryRow}
    (h : matchKey c.building c.date r = false) : applyConflictUpdate c r = r := by
  unfold applyConflictUpdate
  rw [h]
  simp

theorem mem_upsertRow {store : List SummaryRow} {c x : SummaryRow}
    (hx : x ∈ upsertRow store c) :
    x = c ∨ (x ∈ store ∧ matchKey c.building c.date x = false) := by
  unfold upsertRow at hx
  split at hx
  · rcases List.mem_map.mp hx with ⟨r, hr, hrx⟩
    by_cases hm : matchKey c.building c.date r = true
    · left
      rw [← hrx, applyConflictUpdate_of_match hm]
    · right
      have hm' : matchKey c.building c.date r = false := by
        cases hq : matchKey c.building c.date r
        · rfl
        · exact absurd hq hm
      rw [← hrx, applyConflictUpdate_of_not_match hm']
      exact ⟨hr, hm'⟩
  · rename_i hany
    rcases List.mem_append.mp hx with hx' | hx'
    · right
      refine ⟨hx', ?_⟩
      have := List.any_eq_false.mp (by simpa using hany)
      have hnot := this x hx'
      cases hq : matchKey c.building c.date x
      · rfl
      · exact absurd hq hnot
    · left
      simpa using hx'

theorem mem_upsertRow_of_not_match {store : List SummaryRow} {c x : SummaryRow}
    (hx : x ∈ store) (h : matchKey c.building c.date x = false) :
    x ∈ upsertRow store c := by
  unfold upsertRow
  split
  · exact List.mem_map.mpr ⟨x, hx, applyConflictUpdate_of_not_match h⟩
  · exact List.mem_append.mpr (Or.inl hx)

theorem self_mem_upsertRow (store : List SummaryRow) (c : SummaryRow) :
    c ∈ upsertRow store c := by
  unfold upsertRow
  split
  · rename_i hany
    rcases List.any_eq_true.mp hany with ⟨r, hr, hmr⟩
    exact List.mem_map.mpr ⟨r, hr, applyConflictUpdate_of_match hmr⟩
  · simp

/-! ### Idempotence of the upsert -/

/-- The `(building, date)` key of a summary row. -/
def rowKey (r : SummaryRow) : String × Nat := (r.building, r.date)

/-- A candidate is settled in a store when it is present and is the only
row carrying its key. -/
def Settled (store : List SummaryRow) (c : SummaryRow) : Prop :=
  c ∈ store ∧ ∀ x ∈ store, matchKey c.building c.date x = true → x = c

theorem upsertRow_of_settled {store : List SummaryRow} {c : SummaryRow}
    (h : Settled store c) : upsertRow store c = store := by
  rcases h with ⟨hmem, hall⟩
  unfold upsertRow
  rw [if_pos (List.any_eq_true.mpr ⟨c, hmem, matchKey_self c⟩)]
  have hmap : store.map (applyConflictUpdate c) = store.map id := by
    apply List.map_congr_left
    intro x hx
    by_cases hm : matchKey c.building c.date x = true
    · rw [applyConflictUpdate_of_match hm, hall x hx hm]
      rfl
    · have hm' : matchKey c.building c.date x = false := by
        cases hq : matchKey c.building c.date x
        · rfl
        · exact absurd hq hm
      rw [applyConflictUpdate_of_not_match hm']
      rfl
  rw [hmap, List.map_id]

theorem settled_upsertRow_self (store : List SummaryRow) (c : SummaryRow) :
    Settled (upsertRow store c) c := by
  refine ⟨self_mem_upsertRow store c, ?_⟩
  intro x hx hm
  rcases mem_upsertRow hx with h | ⟨-, hfalse⟩
  · exact h
  · rw [hm] at hfalse
    exact absurd hfalse (by simp)

theorem settled_upsertRow_of_ne {store : List SummaryRow} {c c' : SummaryRow}
    (h : Settled store c) (hne : rowKey c' ≠ rowKey c) :
    Settled (upsertRow store c') c := by
  rcases h with ⟨hmem, hall⟩
  have hcm : matchKey c'.building c'.date c = false := by
    apply matchKey_eq_false_iff.mpr
    intro ⟨hb, hd⟩
    exact hne (by simp [rowKey, hb, hd])
  refine ⟨mem_upsertRow_of_not_match hmem hcm, ?_⟩
  intro x hx hm
  rcases mem_upsertRow hx with h | ⟨hxs, -⟩
  · exfalso
    subst h
    rcases matchKey_eq_true_iff.mp hm with ⟨hb, hd⟩
    exact hne (by simp [rowKey, hb, hd])
  · exact hall x hxs hm

theorem settled_foldl_upsertRow {store : List SummaryRow} {c : SummaryRow}
    (rows : List SummaryRow) (h : Settled store c)
    (hne : ∀ c' ∈ rows, rowKey c' ≠ rowKey c) :
    Settled (rows.foldl upsertRow store) c := by
  induction rows generalizing store with
  | nil => exact h
  | cons a rest ih =>
      exact ih (settled_upsertRow_of_ne h (hne a (List.mem_cons_self a rest)))
        (fun c' hc' => hne c' (List.mem_cons_of_mem a hc'))

theorem settled_all_foldl {store : List SummaryRow} (rows : List SummaryRow)
    (hnd : (rows.map rowKey).Nodup) :
    ∀ c ∈ rows, Settled (rows.foldl upsertRow store) c := by
  induction rows generalizing store with
  | nil => intro c hc; cases hc
  | cons a rest ih =>
      rw [List.map_cons, List.nodup_cons] at hnd
      intro c hc
      rcases List.mem_cons.mp hc with rfl | hc'
      · exact settled_foldl_upsertRow rest (settled_upsertRow_self store c)
          (fun c' hc' heq => hnd.1 (heq ▸ List.mem_map_of_mem rowKey hc'))
      · exact ih hnd.2 c hc'

theorem foldl_upsertRow_of_all_settled {store : List SummaryRow}
    (rows : List SummaryRow) (h : ∀ c ∈ rows, Settled store c) :
    rows.foldl upsertRow store = store := by
  induction rows with
  | nil => rfl
  | cons a rest ih =>
      have ha := upsertRow_of_settled (h a (List.mem_cons_self a rest))
      rw [List.foldl_cons, ha]
      exact ih (fun c hc => h c (List.mem_cons_of_mem a hc))

/-- Upserting the same candidate list twice is the same as upserting it
once, whenever the candidates carry pairwise distinct keys. -/
theorem upsert_analytics_idem (store rows : List SummaryRow)
    (hnd : (rows.map rowKey).Nodup) :
    upsert_analytics (upsert_analytics store rows) rows =
      upsert_analytics store rows := by
  rw [upsert_analytics_eq_foldl, upsert_analytics_eq_foldl]
  exact foldl_upsertRow_of_all_settled rows (settled_all_foldl rows hnd)

/-! ### Keys of the aggregation output -/

theorem rowKey_aggregateGroup (rs : List Reading) (k : String × Nat) :
    rowKey (aggregateGroup rs k) = k := rfl

theorem compute_map_rowKey (raw : List Reading) (start_dt end_dt : Option Nat) :
    (compute_daily_aggregates raw start_dt end_dt).map rowKey =
      List.insertionSort keyLE (dailyKeys (raw.filter (inWindow start_dt end_dt))) := by
  unfold compute_daily_aggregates
  rw [List.map_map]
  have : rowKey ∘ aggregateGroup (raw.filter (inWindow start_dt end_dt)) = id := by
    funext k
    exact rowKey_aggregateGroup _ k
  rw [this, List.map_id]

theorem compute_rowKey_nodup (raw : List Reading) (start_dt end_dt : Option Nat) :
    ((compute_daily_aggregates raw start_dt end_dt).map rowKey).Nodup := by
  rw [compute_map_rowKey]
  exact ((List.perm_insertionSort keyLE _).nodup_iff).mpr (List.nodup_dedup _)

/-! ### Counting rows of the output by key -/

theorem length_filter_eq_of_nodup {α : Type} [DecidableEq α]
    (l : List α) (hnd : l.Nodup) (a : α) :
    (l.filter (fun x => decide (x = a))).length = if a ∈ l then 1 else 0 := by
  induction l with
  | nil => simp
  | cons x xs ih =>
      rw [List.nodup_cons] at hnd
      by_cases hxa : x = a
      · subst hxa
        have h1 : xs.filter (fun y => decide (y = x)) = [] := by
          apply List.filter_eq_nil_iff.mpr
          intro y hy
          simp only [decide_eq_true_eq]
          intro hyx
          exact hnd.1 (hyx ▸ hy)
        simp [List.filter, h1]
      · have : (x :: xs).filter (fun y => decide (y = a)) =
            xs.filter (fun y => decide (y = a)) := by
          simp [List.filter, hxa]
        rw [this, ih hnd.2]
        have hmem : a ∈ x :: xs ↔ a ∈ xs := by
          simp [List.mem_cons]
          intro hax
          exact absurd hax.symm hxa
        by_cases ha : a ∈ xs <;> simp [ha, hmem]

theorem keyCount_compute (raw : List Reading) (start_dt end_dt : Option Nat)
    (b : String) (d : Nat) :
    keyCount (compute_daily_aggregates raw start_dt end_dt) b d =
      if (b, d) ∈ (raw.filter (inWindow start_dt end_dt)).map readingKey
      then 1 else 0 := by
  unfold keyCount compute_daily_aggregates
  rw [List.filter_map, List.length_map]
  have hpred : ∀ k : String × Nat,
      (matchKey b d ∘ aggregateGroup (raw.filter (inWindow start_dt end_dt))) k =
        decide (k = (b, d)) := by
    intro k
    simp only [Function.comp, matchKey, aggregateGroup]
    cases k with
    | mk k1 k2 =>
        by_cases h1 : k1 = b <;> by_cases h2 : k2 = d <;>
          simp [h1, h2, Prod.ext_iff]
  rw [List.filter_congr (fun k _ => hpred k)]
  have hnd : (List.insertionSort keyLE
      (dailyKeys (raw.filter (inWindow start_dt end_dt)))).Nodup :=
    ((List.perm_insertionSort keyLE _).nodup_iff).mpr (List.nodup_dedup _)
  rw [length_filter_eq_of_nodup _ hnd]
  have hmem : (b, d) ∈ List.insertionSort keyLE
      (dailyKeys (raw.filter (inWindow start_dt end_dt))) ↔
      (b, d) ∈ (raw.filter (inWindow start_dt end_dt)).map readingKey := by
    rw [(List.perm_insertionSort keyLE _).mem_iff]
    exact List.mem_dedup
  by_cases hm : (b, d) ∈ (raw.filter (inWindow start_dt end_dt)).map readingKey <;>
    simp [hm, hmem]

/-! ### Frame lemmas: keys not in the candidate set are untouched -/

theorem filter_upsertRow_of_ne (store : List SummaryRow) (c : SummaryRow)
    (b : String) (d : Nat) (h : ¬(c.building = b ∧ c.date = d)) :
    (upsertRow store c).filter (matchKey b d) = store.filter (matchKey b d) := by
  unfold upsertRow
  split
  · rw [List.filter_map]
    have hcongr : store.filter (matchKey b d ∘ applyConflictUpdate c) =
        store.filter (matchKey b d) := by
      apply List.filter_congr
      intro x _
      simp [Function.comp, matchKey_applyConflictUpdate]
    rw [hcongr]
    have hid : (store.filter (matchKey b d)).map (applyConflictUpdate c) =
        (store.filter (matchKey b d)).map id := by
      apply List.map_congr_left
      intro x hx
      have hm := (List.mem_filter.mp hx).2
      rcases matchKey_eq_true_iff.mp hm with ⟨hb, hd⟩
      have hcx : matchKey c.building c.date x = false := by
        apply matchKey_eq_false_iff.mpr
        intro ⟨hb', hd'⟩
        exact h ⟨hb ▸ hb'.symm ▸ rfl, hd ▸ hd'.symm ▸ rfl⟩
      rw [applyConflictUpdate_of_not_match hcx]
      rfl
    rw [hid, List.map_id]
  · rw [List.filter_append]
    have hc : matchKey b d c = false := matchKey_eq_false_iff.mpr h
    simp [List.filter, hc]

theorem filter_foldl_upsertRow_of_ne (store rows : List SummaryRow)
    (b : String) (d : Nat) (h : ∀ c ∈ rows, ¬(c.building = b ∧ c.date = d)) :
    (rows.foldl upsertRow store).filter (matchKey b d) =
      store.filter (matchKey b d) := by
  induction rows generalizing store with
  | nil => rfl
  | cons a rest ih =>
      rw [List.foldl_cons,
        ih (upsertRow store a) (fun c hc => h c (List.mem_cons_of_mem a hc)),
        filter_upsertRow_of_ne store a b d (h a (List.mem_cons_self a rest))]

/-! ### Range resolution and end-of-day arithmetic -/

theorem le_endOfDay_of_same_day {ts mx : Nat} (h : dayOf ts = dayOf mx) :
    ts ≤ endOfDay mx := by
  have hmod : ts % usPerDay < usPerDay := Nat.mod_lt _ (by decide)
  have hdiv : usPerDay * dayOf ts + ts % usPerDay = ts := Nat.div_add_mod ts usPerDay
  unfold endOfDay
  rw [← h]
  unfold usPerDay at *
  omega

theorem resolveWindow_explicit (raw : List Reading) (a b : Nat) :
    resolveWindow raw (some a) (some b) = Except.ok (a, b) := rfl

theorem resolveWindow_auto_end (raw : List Reading) (s₀ : Option Nat)
    (mn mx : Nat) (hb : fetch_date_bounds raw = (some mn, some mx)) :
    resolveWindow raw s₀ none = Except.ok (s₀.getD mn, endOfDay mx) := by
  cases s₀ <;> simp [resolveWindow, hb]

/-! ### Groups of emitted rows are nonempty -/

theorem mem_groupFor_of_readingKey {rs : List Reading} {r : Reading}
    {k : String × Nat} (hr : r ∈ rs) (hk : readingKey r = k) :
    r ∈ groupFor rs k.1 k.2 := by
  apply List.mem_filter.mpr
  refine ⟨hr, ?_⟩
  have hb : r.building = k.1 := by rw [← hk]; rfl
  have hd : dayOf r.timestamp = k.2 := by rw [← hk]; rfl
  simp [hb, hd]

theorem groupFor_ne_nil_of_mem_keys {rs : List Reading} {k : String × Nat}
    (hk : k ∈ List.insertionSort keyLE (dailyKeys rs)) :
    1 ≤ (groupFor rs k.1 k.2).length := by
  have hk' : k ∈ dailyKeys rs := (List.perm_insertionSort keyLE _).subset hk
  have hk'' : k ∈ rs.map readingKey := List.mem_dedup.mp hk'
  rcases List.mem_map.mp hk'' with ⟨r, hr, hrk⟩
  exact List.length_pos.mpr
    (List.ne_nil_of_mem (mem_groupFor_of_readingKey hr hrk))

theorem mem_compute_daily_aggregates {raw : List Reading}
    {start_dt end_dt : Option Nat} {row : SummaryRow}
    (h : row ∈ compute_daily_aggregates raw start_dt end_dt) :
    ∃ k ∈ List.insertionSort keyLE
        (dailyKeys (raw.filter (inWindow start_dt end_dt))),
      row = aggregateGroup (raw.filter (inWindow start_dt end_dt)) k := by
  unfold compute_daily_aggregates at h
  rcases List.mem_map.mp h with ⟨k, hk, hkr⟩
  exact ⟨k, hk, hkr.symm⟩

/-! ## Claim theorems -/

/-- C1. Uniqueness invariant: starting from a summary store in which every
(building, date) key appears on at most one row, after any sequence of
`upsert_analytics` calls the store still contains at most one row for
every (building, date) pair. -/
theorem upsert_preserves_uniqueness (store : List SummaryRow)
    (batches : List (List SummaryRow)) (h : uniqueStore store) :
    uniqueStore (batches.foldl upsert_analytics store) := by
  induction batches generalizing store with
  | nil => exact h
  | cons rows rest ih => exact ih _ (uniqueStore_upsert_analytics rows h)

theorem upsert_preserves_uniqueness_witness :
    uniqueStore []
    ∧ uniqueStore ([[rowA], [rowB, rowA2]].foldl upsert_analytics []) := by
  have h : uniqueStore [] := by
    intro b d
    simp [keyCount]
  exact ⟨h, upsert_preserves_uniqueness [] [[rowA], [rowB, rowA2]] h⟩

/-- C2. Idempotence: for a fixed window and fixed raw-store contents,
running `compute_daily_aggregates` followed by `upsert_analytics` twice
leaves the summary store exactly as running it once does. -/
theorem aggregate_upsert_idempotent (raw : List Reading)
    (store : List SummaryRow) (start_dt end_dt : Option Nat) :
    upsert_analytics
        (upsert_analytics store (compute_daily_aggregates raw start_dt end_dt))
        (compute_daily_aggregates raw start_dt end_dt) =
      upsert_analytics store (compute_daily_aggregates raw start_dt end_dt) :=
  upsert_analytics_idem store _ (compute_rowKey_nodup raw start_dt end_dt)

/-- C3. Coverage: over the window `[s, e)`, `compute_daily_aggregates`
emits exactly one row for each (building, day) pair having at least one
reading with `s <= timestamp < e`, and no row for any pair without such a
reading. -/
theorem compute_coverage (raw : List Reading) (s e : Nat) (b : String) (d : Nat) :
    keyCount (compute_daily_aggregates raw (some s) (some e)) b d =
      if raw.any (fun r => decide (s ≤ r.timestamp) && decide (r.timestamp < e)
          && decide (r.building = b) && decide (dayOf r.timestamp = d)) = true
      then 1 else 0 := by
  rw [keyCount_compute]
  refine if_congr ?_ rfl rfl
  rw [List.mem_map, List.any_eq_true]
  constructor
  · rintro ⟨r, hr, hk⟩
    rcases List.mem_filter.mp hr with ⟨hraw, hwin⟩
    refine ⟨r, hraw, ?_⟩
    have hb : r.building = b := congrArg Prod.fst hk
    have hd : dayOf r.timestamp = d := congrArg Prod.snd hk
    unfold inWindow at hwin
    simp only [Bool.and_eq_true, decide_eq_true_eq] at hwin
    simp [hb, hd, hwin.1, hwin.2]
  · rintro ⟨r, hraw, hcond⟩
    simp only [Bool.and_eq_true, decide_eq_true_eq] at hcond
    refine ⟨r, List.mem_filter.mpr ⟨hraw, ?_⟩, ?_⟩
    · unfold inWindow
      simp [hcond.1.1.1, hcond.1.1.2]
    · unfold readingKey
      rw [hcond.1.2, hcond.2]

/-- C4. Overwrite semantics: for a candidate passed to `upsert_analytics`,
if no summary row exists with its (building, date) key the candidate is
appended; if one exists, its aggregate fields are overwritten with the
candidate's values; afterwards exactly one row exists for that key and
every row with that key equals the candidate. -/
theorem upsert_overwrite_semantics (store : List SummaryRow) (c : SummaryRow)
    (h : keyCount store c.building c.date ≤ 1) :
    (keyCount store c.building c.date = 0 →
        upsert_analytics store [c] = store ++ [c])
    ∧ keyCount (upsert_analytics store [c]) c.building c.date = 1
    ∧ ∀ x ∈ upsert_analytics store [c],
        matchKey c.building c.date x = true → x = c := by
  have hfold : upsert_analytics store [c] = upsertRow store c := by
    rw [upsert_analytics_eq_foldl]
    rfl
  refine ⟨?_, ?_, ?_⟩
  · intro h0
    have h0' := keyCount_eq_zero_iff.mp h0
    rw [hfold]
    unfold upsertRow
    rw [h0']
    simp
  · rw [hfold, keyCount_upsertRow_self]
    exact Nat.max_eq_right h
  · rw [hfold]
    exact (settled_upsertRow_self store c).2

theorem upsert_overwrite_semantics_witness :
    keyCount [rowA] rowA2.building rowA2.date ≤ 1
    ∧ ((keyCount [rowA] rowA2.building rowA2.date = 0 →
          upsert_analytics [rowA] [rowA2] = [rowA] ++ [rowA2])
      ∧ keyCount (upsert_analytics [rowA] [rowA2]) rowA2.building rowA2.date = 1
      ∧ ∀ x ∈ upsert_analytics [rowA] [rowA2],
          matchKey rowA2.building rowA2.date x = true → x = rowA2) :=
  ⟨by decide, upsert_overwrite_semantics [rowA] rowA2 (by decide)⟩

/-- C8. Empty-merge no-op: calling `upsert_analytics` with an empty
candidate list succeeds and leaves the summary store completely
unchanged (and performs no store operation). -/
theorem empty_merge_noop (store : List SummaryRow) :
    upsert_analytics store [] = store
    ∧ (upsert_analytics_run store []).2 = [] :=
  ⟨rfl, rfl⟩

/-- C9. Frame property: a successful `upsert_analytics` call changes no
summary row whose (building, date) key is not among the candidates: the
rows carrying any such key are exactly the rows that carried it before. -/
theorem upsert_frame (store rows : List SummaryRow) (b : String) (d : Nat)
    (h : ∀ c ∈ rows, ¬(c.building = b ∧ c.date = d)) :
    (upsert_analytics store rows).filter (matchKey b d) =
      store.filter (matchKey b d) := by
  rw [upsert_analytics_eq_foldl]
  exact filter_foldl_upsertRow_of_ne store rows b d h

theorem upsert_frame_witness :
    (∀ c ∈ [rowB], ¬(c.building = "Building A" ∧ c.date = 19723))
    ∧ (upsert_analytics [rowA] [rowB]).filter (matchKey "Building A" 19723) =
        [rowA].filter (matchKey "Building A" 19723) :=
  ⟨by decide, upsert_frame [rowA] [rowB] "Building A" 19723 (by decide)⟩

/-- C10. An empty merge performs no store interaction at all: the
operation trace is empty, so `ensure_unique_index_on_analytics` is
skipped, even though constraint setup precedes every non-empty merge. -/
theorem empty_merge_skips_constraint (store rows : List SummaryRow)
    (h : rows ≠ []) :
    (upsert_analytics_run store []).2 = []
    ∧ (upsert_analytics_run store rows).2 =
        ensure_unique_index_on_analytics ++
          [StoreOp.insertOnConflict rows, StoreOp.commit] := by
  refine ⟨rfl, ?_⟩
  unfold upsert_analytics_run
  rw [if_neg (fun hc => h (List.isEmpty_iff.mp hc))]

theorem empty_merge_skips_constraint_witness :
    [rowA] ≠ ([] : List SummaryRow)
    ∧ ((upsert_analytics_run [rowB] []).2 = []
      ∧ (upsert_analytics_run [rowB] [rowA]).2 =
          ensure_unique_index_on_analytics ++
            [StoreOp.insertOnConflict [rowA], StoreOp.commit]) :=
  ⟨by decide, empty_merge_skips_constraint [rowB] [rowA] (by decide)⟩

/-- C5 counterexample: with the raw store holding a single reading at
2024-01-01T23:59:59.999999 and no explicit bounds, the auto-detected end
is widened to 23:59:59.999999 of the detected maximum's day (here the
maximum itself), yet the reading — which falls on that day — fails the
exclusive end bound and contributes to no summary at all. -/
theorem auto_detect_inclusivity_counterexample :
    resolveWindow rawEdge none none =
      Except.ok (1704153599999999, 1704153599999999)
    ∧ 1704153599999999 = endOfDay readingEdge.timestamp
    ∧ dayOf readingEdge.timestamp = dayOf 1704153599999999
    ∧ inWindow (some 1704153599999999) (some 1704153599999999) readingEdge = false
    ∧ compute_daily_aggregates rawEdge
        (some 1704153599999999) (some 1704153599999999) = [] :=
  ⟨rfl, by decide, rfl, by decide, by decide⟩

/-- The amended claim C5, as a predicate of the raw store, the detected
maximum timestamp and the resolved end bound: the auto-detected end is
widened to end-of-day `23:59:59.999999` of the maximum's day; every
reading on that day except one falling at exactly `23:59:59.999999`
satisfies the exclusive end bound; an explicit caller-supplied end bound
passes through unchanged; and in the spec's example (readings only at
2024-01-01T00:05 and 2024-01-01T23:55, no explicit bounds) both readings
pass the resolved window and exactly one summary row is produced for
(Building A, 2024-01-01). -/
def autoEndWidenSpec (raw : List Reading) (mx e : Nat) : Prop :=
  e = endOfDay mx
  ∧ (∀ r ∈ raw, dayOf r.timestamp = dayOf mx → r.timestamp ≠ endOfDay mx →
      r.timestamp < e)
  ∧ (∀ p q : Nat, resolveWindow raw (some p) (some q) = Except.ok (p, q))
  ∧ (resolveWindow rawInc none none =
      Except.ok (1704067500000000, 1704153599999999)
    ∧ (∀ r ∈ rawInc,
        inWindow (some 1704067500000000) (some 1704153599999999) r = true)
    ∧ keyCount (compute_daily_aggregates rawInc
        (some 1704067500000000) (some 1704153599999999)) "Building A" 19723 = 1)

/-- C5 (amended). When the end bound is auto-detected, it is widened to
end-of-day 23:59:59.999999 of the detected maximum timestamp's day, so
every reading of that day except one at exactly 23:59:59.999999 satisfies
the exclusive end bound; explicit end bounds pass through unchanged; the
spec's 00:05/23:55 example aggregates both readings into one summary. -/
theorem auto_detect_end_widening (raw : List Reading) (start₀ : Option Nat)
    (mn mx a e : Nat)
    (hb : fetch_date_bounds raw = (some mn, some mx))
    (hr : resolveWindow raw start₀ none = Except.ok (a, e)) :
    autoEndWidenSpec raw mx e := by
  have he : e = endOfDay mx := by
    rw [resolveWindow_auto_end raw start₀ mn mx hb] at hr
    simp only [Except.ok.injEq, Prod.mk.injEq] at hr
    exact hr.2.symm
  refine ⟨he, ?_, fun p q => rfl, rfl, by decide, by decide⟩
  intro r hr' hday hne
  rw [he]
  exact lt_of_le_of_ne (le_endOfDay_of_same_day hday) hne

theorem auto_detect_end_widening_witness :
    fetch_date_bounds rawInc = (some 1704067500000000, some 1704153300000000)
    ∧ resolveWindow rawInc none none =
        Except.ok (1704067500000000, 1704153599999999)
    ∧ autoEndWidenSpec rawInc 1704153300000000 1704153599999999 :=
  ⟨rfl, rfl,
    auto_detect_end_widening rawInc none 1704067500000000 1704153300000000
      1704067500000000 1704153599999999 rfl rfl⟩

/-- C6. Rate definition and bounds: for every row emitted by
`compute_daily_aggregates`, `occupancy_rate` equals the number of readings
of its group with positive occupancy divided by the group size; the group
has at least one reading, and the rate lies in [0, 1]. -/
theorem compute_rate_spec (raw : List Reading) (start_dt end_dt : Option Nat)
    (row : SummaryRow) (h : row ∈ compute_daily_aggregates raw start_dt end_dt) :
    occupancyRateSpec raw start_dt end_dt row := by
  rcases mem_compute_daily_aggregates h with ⟨k, hk, rfl⟩
  have hlen : 1 ≤ (groupFor (raw.filter (inWindow start_dt end_dt)) k.1 k.2).length :=
    groupFor_ne_nil_of_mem_keys hk
  refine ⟨rfl, hlen, ?_, ?_⟩
  · exact div_nonneg (Nat.cast_nonneg _) (Nat.cast_nonneg _)
  · have hpos : (0 : ℚ) <
        ((groupFor (raw.filter (inWindow start_dt end_dt)) k.1 k.2).length : ℚ) := by
      exact_mod_cast Nat.lt_of_lt_of_le Nat.zero_lt_one hlen
    exact (div_le_one hpos).mpr
      (Nat.cast_le.mpr (List.length_filter_le _ _))

theorem compute_rate_spec_witness :
    rowInc ∈ compute_daily_aggregates rawInc none none
    ∧ occupancyRateSpec rawInc none none rowInc := by
  have hc : compute_daily_aggregates rawInc none none = [rowInc] := rfl
  have hmem : rowInc ∈ compute_daily_aggregates rawInc none none := by
    rw [hc]
    exact List.mem_singleton_self rowInc
  exact ⟨hmem, compute_rate_spec rawInc none none rowInc hmem⟩

/-- C7. NoDataAvailable: when either bound is missing and the raw store
has zero readings (its min and max timestamps are null), the run fails
with the no-data error, leaving the summary store untouched; when both
bounds are supplied, the bounds query is not consulted and the run
upserts the computed aggregates without that failure. -/
theorem no_data_available (raw : List Reading) (store : List SummaryRow)
    (s e : Option Nat) (hmiss : s = none ∨ e = none) (hempty : raw = []) :
    fetch_date_bounds raw = (none, none)
    ∧ mainRun raw store s e = (store, some RunError.noDataAvailable)
    ∧ ∀ (a b : Nat) (raw₁ : List Reading) (store₁ : List SummaryRow),
        mainRun raw₁ store₁ (some a) (some b) =
          (upsert_analytics store₁
            (compute_daily_aggregates raw₁ (some a) (some b)), none) := by
  subst hempty
  refine ⟨rfl, ?_, fun a b raw₁ store₁ => rfl⟩
  rcases hmiss with rfl | rfl
  · rfl
  · cases s <;> rfl

theorem no_data_available_witness :
    ((none : Option Nat) = none ∨ (some 5 : Option Nat) = none)
    ∧ ([] : List Reading) = []
    ∧ (fetch_date_bounds ([] : List Reading) = (none, none)
      ∧ mainRun [] [rowA] none (some 5) =
          ([rowA], some RunError.noDataAvailable)
      ∧ ∀ (a b : Nat) (raw₁ : List Reading) (store₁ : List SummaryRow),
          mainRun raw₁ store₁ (some a) (some b) =
            (upsert_analytics store₁
              (compute_daily_aggregates raw₁ (some a) (some b)), none)) :=
  ⟨Or.inl rfl, rfl,
    no_data_available [] [rowA] none (some 5) (Or.inl rfl) rfl⟩
